import Mathlib

/-!
Verification of the core logic of `add_video_doc.py`: menu-tree insertion,
ordered-catalog insertion, marker-based content derivation, ancestor-page
patching and the placement pipeline.  Every definition is a shallow
embedding of the corresponding Python function; observation functions used
only to state properties are marked as such in their doc comments.
-/

namespace AddVideoDoc

/-! ## Menu tree (`suggest_placement`, `add_to_menu`)

A node of the menu JSON is a dict that optionally carries an `"id"` string
and optionally carries a `"children"` list (an absent `children` key and a
`children` key holding the empty list are distinguished, as they are by the
Python `'children' in node` tests).  A menu document is a list of nodes. -/

inductive MenuNode : Type where
  | mk (id : Option String) (children : Option (List MenuNode))

namespace MenuNode

/-- The `"id"` field of a node (`node.get('id')`). -/
def getId : MenuNode → Option String
  | mk i _ => i

end MenuNode

/-- Embedding of `search_and_insert` (the inner worker of `add_to_menu`,
src/add_video_doc.py lines 203-214), written functionally: instead of
mutating a sibling list in place and returning `True`/`False`, it returns
`some` of the updated list on success and `none` when `anchor` was not
found anywhere.  For each item in order it first compares the item's id
with the anchor (inserting the new entry right after the item on a match),
then recurses into the item's `children` when that key is present, then
moves on to the remaining siblings. -/
def search_and_insert (anchor : String) (newEntry : MenuNode) :
    List MenuNode → Option (List MenuNode)
  | [] => none
  | MenuNode.mk i none :: rest =>
      if i = some anchor then some (MenuNode.mk i none :: newEntry :: rest)
      else (search_and_insert anchor newEntry rest).map (MenuNode.mk i none :: ·)
  | MenuNode.mk i (some cs) :: rest =>
      if i = some anchor then some (MenuNode.mk i (some cs) :: newEntry :: rest)
      else
        match search_and_insert anchor newEntry cs with
        | some cs2 => some (MenuNode.mk i (some cs2) :: rest)
        | none => (search_and_insert anchor newEntry rest).map (MenuNode.mk i (some cs) :: ·)

/-- Observation function (not in the source): the identifiers of a menu
forest in depth-first preorder — each node contributes its own id (when
present) followed by the ids of its children, then its later siblings.
Used to state the flattened-order properties of `search_and_insert`. -/
def flattenIds : List MenuNode → List String
  | [] => []
  | MenuNode.mk i none :: rest => i.toList ++ flattenIds rest
  | MenuNode.mk i (some cs) :: rest => i.toList ++ (flattenIds cs ++ flattenIds rest)

/-- Observation function (not in the source): the number of node objects in
a menu forest.  Used to state the size properties of `search_and_insert`. -/
def nodeCount : List MenuNode → Nat
  | [] => 0
  | MenuNode.mk _ none :: rest => 1 + nodeCount rest
  | MenuNode.mk _ (some cs) :: rest => 1 + (nodeCount cs + nodeCount rest)

/-- Observation function: the depth-first identifiers contributed by an
optional children list. -/
def flattenChildren : Option (List MenuNode) → List String
  | none => []
  | some cs => flattenIds cs

/-- Observation predicate: every node of the forest whose id equals `a`
carries no child node (its `children` key is absent or holds `[]`). -/
def anchorChildless (a : String) : List MenuNode → Bool
  | [] => true
  | MenuNode.mk _ none :: rest => anchorChildless a rest
  | MenuNode.mk i (some cs) :: rest =>
      (decide (i ≠ some a) || cs.isEmpty) && (anchorChildless a cs && anchorChildless a rest)

theorem flattenIds_append (xs ys : List MenuNode) :
    flattenIds (xs ++ ys) = flattenIds xs ++ flattenIds ys := by
  induction xs using flattenIds.induct with
  | case1 => simp [flattenIds]
  | case2 i rest ih => simp [flattenIds, ih]
  | case3 i cs rest ih1 ih2 => simp [flattenIds, ih2]

theorem nodeCount_append (xs ys : List MenuNode) :
    nodeCount (xs ++ ys) = nodeCount xs + nodeCount ys := by
  induction xs using nodeCount.induct with
  | case1 => simp [nodeCount]
  | case2 i rest ih => simp [nodeCount, ih]; omega
  | case3 i cs rest ih1 ih2 => simp [nodeCount, ih2]; omega

/-- If the anchor occurs among the flattened identifiers, the depth-first
search of `search_and_insert` succeeds. -/
theorem insert_found_of_mem (anchor : String) (nn : MenuNode) (f : List MenuNode)
    (h : anchor ∈ flattenIds f) :
    ∃ f', search_and_insert anchor nn f = some f' := by
  induction f using search_and_insert.induct anchor nn with
  | case1 => simp [flattenIds] at h
  | case2 rest =>
      exact ⟨MenuNode.mk (some anchor) none :: nn :: rest, by simp [search_and_insert]⟩
  | case3 i rest hne ih =>
      simp only [flattenIds, List.mem_append, Option.mem_toList, Option.mem_def] at h
      rcases h with h | h
      · exact absurd h hne
      · obtain ⟨f', hf'⟩ := ih h
        exact ⟨MenuNode.mk i none :: f', by simp [search_and_insert, hne, hf']⟩
  | case4 cs rest =>
      exact ⟨MenuNode.mk (some anchor) (some cs) :: nn :: rest, by simp [search_and_insert]⟩
  | case5 i cs rest hne cs2 hcs ih =>
      exact ⟨MenuNode.mk i (some cs2) :: rest, by simp [search_and_insert, hne, hcs]⟩
  | case6 i cs rest hne hcs ihc ihr =>
      simp only [flattenIds, List.mem_append, Option.mem_toList, Option.mem_def] at h
      rcases h with h | h | h
      · exact absurd h hne
      · obtain ⟨f', hf'⟩ := ihc h
        rw [hf'] at hcs
        exact absurd hcs (by simp)
      · obtain ⟨f', hf'⟩ := ihr h
        exact ⟨MenuNode.mk i (some cs) :: f', by simp [search_and_insert, hne, hcs, hf']⟩

/-- Structure of a successful `search_and_insert`: the flattened id
sequence of the result is that of the input with the new node's subtree
ids spliced in right after the first occurrence of the anchor and the
(flattened) ids of the matched node's children; the node count grows by
the size of the new subtree. -/
theorem insert_decomp (anchor : String) (nn : MenuNode) (f : List MenuNode) :
    ∀ f', search_and_insert anchor nn f = some f' →
    ∃ p c l2,
      flattenIds f = p ++ anchor :: (flattenChildren c ++ l2) ∧
      flattenIds f' = p ++ anchor :: (flattenChildren c ++ (flattenIds [nn] ++ l2)) ∧
      nodeCount f' = nodeCount f + nodeCount [nn] ∧
      anchor ∉ p ∧
      (anchorChildless anchor f = true → flattenChildren c = []) := by
  induction f using search_and_insert.induct anchor nn with
  | case1 => intro f' hf'; simp [search_and_insert] at hf'
  | case2 rest =>
      intro f' hf'
      simp [search_and_insert] at hf'
      subst hf'
      refine ⟨[], none, flattenIds rest, by simp [flattenIds, flattenChildren], ?_, ?_, by simp, by simp [flattenChildren]⟩
      · have hsplit : flattenIds (nn :: rest) = flattenIds [nn] ++ flattenIds rest :=
          flattenIds_append [nn] rest
        simp [flattenIds, flattenChildren, hsplit]
      · have hsplit : nodeCount (nn :: rest) = nodeCount [nn] + nodeCount rest :=
          nodeCount_append [nn] rest
        simp [nodeCount, hsplit]
        omega
  | case3 i rest hne ih =>
      intro f' hf'
      simp only [search_and_insert, if_neg hne, Option.map_eq_some'] at hf'
      obtain ⟨rest', hrest', rfl⟩ := hf'
      obtain ⟨p, c, l2, e1, e2, e3, hnp, hcl⟩ := ih rest' hrest'
      refine ⟨i.toList ++ p, c, l2, ?_, ?_, ?_, ?_, ?_⟩
      · simp [flattenIds, e1]
      · simp [flattenIds, e2]
      · simp [nodeCount, e3]; omega
      · intro hmem
        rcases List.mem_append.mp hmem with h | h
        · exact hne (by simpa [Option.mem_toList, Option.mem_def] using h)
        · exact hnp h
      · intro hch
        exact hcl (by simpa [anchorChildless] using hch)
  | case4 cs rest =>
      intro f' hf'
      simp [search_and_insert] at hf'
      subst hf'
      refine ⟨[], some cs, flattenIds rest, by simp [flattenIds, flattenChildren], ?_, ?_, by simp, ?_⟩
      · have hsplit : flattenIds (nn :: rest) = flattenIds [nn] ++ flattenIds rest :=
          flattenIds_append [nn] rest
        simp [flattenIds, flattenChildren, hsplit]
      · have hsplit : nodeCount (nn :: rest) = nodeCount [nn] + nodeCount rest :=
          nodeCount_append [nn] rest
        simp [nodeCount, hsplit]
        omega
      · intro hch
        have hcs0 : cs = [] := by
          cases cs with
          | nil => rfl
          | cons a l => simp [anchorChildless] at hch
        subst hcs0
        simp [flattenChildren, flattenIds]
  | case5 i cs rest hne cs2 hcs ih =>
      intro f' hf'
      simp only [search_and_insert, if_neg hne, hcs, Option.some.injEq] at hf'
      subst hf'
      obtain ⟨p, c, l2, e1, e2, e3, hnp, hcl⟩ := ih cs2 hcs
      refine ⟨i.toList ++ p, c, l2 ++ flattenIds rest, ?_, ?_, ?_, ?_, ?_⟩
      · simp [flattenIds, e1]
      · simp [flattenIds, e2]
      · simp [nodeCount, e3]; omega
      · intro hmem
        rcases List.mem_append.mp hmem with h | h
        · exact hne (by simpa [Option.mem_toList, Option.mem_def] using h)
        · exact hnp h
      · intro hch
        simp only [anchorChildless, Bool.and_eq_true] at hch
        exact hcl hch.2.1
  | case6 i cs rest hne hcs ihc ihr =>
      intro f' hf'
      simp only [search_and_insert, if_neg hne, hcs, Option.map_eq_some'] at hf'
      obtain ⟨rest', hrest', rfl⟩ := hf'
      obtain ⟨p, c, l2, e1, e2, e3, hnp, hcl⟩ := ihr rest' hrest'
      refine ⟨i.toList ++ flattenIds cs ++ p, c, l2, ?_, ?_, ?_, ?_, ?_⟩
      · simp [flattenIds, e1]
      · simp [flattenIds, e2]
      · simp [nodeCount, e3]; omega
      · intro hmem
        rcases List.mem_append.mp hmem with h | h
        · rcases List.mem_append.mp h with h' | h'
          · exact hne (by simpa [Option.mem_toList, Option.mem_def] using h')
          · obtain ⟨f'', hf''⟩ := insert_found_of_mem anchor nn cs h'
            rw [hf''] at hcs; exact absurd hcs (by simp)
        · exact hnp h
      · intro hch
        simp only [anchorChildless, Bool.and_eq_true] at hch
        exact hcl hch.2.2

/-- **C1** (amended): for every menu tree and every anchor identifier
present in it whose node has no children, `search_and_insert` (the worker
of `add_to_menu`) succeeds and inserts the new leaf node immediately after
the anchor's sibling position, so that in the flattened depth-first
preorder the new id appears immediately after the first occurrence of the
anchor, the node count grows by exactly one, and the relative order of all
pre-existing nodes is unchanged.  (Without the childless restriction the
new node follows the anchor's whole subtree, not the anchor itself — see
the counterexample.) -/
theorem C1_menu_insert_after (anchor newId : String) (f : List MenuNode)
    (h1 : anchor ∈ flattenIds f) (h2 : anchorChildless anchor f = true) :
    ∃ f' p l2,
      search_and_insert anchor (MenuNode.mk (some newId) none) f = some f' ∧
      flattenIds f = p ++ anchor :: l2 ∧
      flattenIds f' = p ++ anchor :: newId :: l2 ∧
      anchor ∉ p ∧
      nodeCount f' = nodeCount f + 1 := by
  obtain ⟨f', hf'⟩ := insert_found_of_mem anchor (MenuNode.mk (some newId) none) f h1
  obtain ⟨p, c, l2, e1, e2, e3, hnp, hcl⟩ := insert_decomp anchor _ f f' hf'
  have hc0 : flattenChildren c = [] := hcl h2
  refine ⟨f', p, l2, hf', ?_, ?_, hnp, ?_⟩
  · simpa [hc0] using e1
  · simpa [hc0, flattenIds] using e2
  · simpa [nodeCount] using e3

/-- **C1** counterexample to the claim as stated: with anchor `"A"` (an
internal node with child `"B"`), the inserted node `"new"` does NOT appear
immediately after the anchor in the flattened depth-first order — the
anchor's subtree comes in between, so `["A", "new"]` is not an infix of
the flattened result. -/
theorem C1_counterexample :
    search_and_insert "A" (MenuNode.mk (some "new") none)
        [MenuNode.mk (some "A") (some [MenuNode.mk (some "B") none])] =
      some [MenuNode.mk (some "A") (some [MenuNode.mk (some "B") none]),
            MenuNode.mk (some "new") none] ∧
    flattenIds [MenuNode.mk (some "A") (some [MenuNode.mk (some "B") none]),
            MenuNode.mk (some "new") none] = ["A", "B", "new"] ∧
    ¬ List.IsInfix ["A", "new"] ["A", "B", "new"] := by
  refine ⟨by simp [search_and_insert], by simp [flattenIds], ?_⟩
  decide

/-- Witness for `C1_menu_insert_after` at a concrete input. -/
theorem C1_menu_insert_after_witness :
    ("B" ∈ flattenIds [MenuNode.mk (some "A")
        (some [MenuNode.mk (some "B") none, MenuNode.mk (some "C") none])]) ∧
    anchorChildless "B" [MenuNode.mk (some "A")
        (some [MenuNode.mk (some "B") none, MenuNode.mk (some "C") none])] = true ∧
    ∃ f' p l2,
      search_and_insert "B" (MenuNode.mk (some "new") none)
        [MenuNode.mk (some "A")
          (some [MenuNode.mk (some "B") none, MenuNode.mk (some "C") none])] = some f' ∧
      flattenIds [MenuNode.mk (some "A")
          (some [MenuNode.mk (some "B") none, MenuNode.mk (some "C") none])] =
        p ++ "B" :: l2 ∧
      flattenIds f' = p ++ "B" :: "new" :: l2 ∧
      "B" ∉ p ∧
      nodeCount f' = nodeCount [MenuNode.mk (some "A")
          (some [MenuNode.mk (some "B") none, MenuNode.mk (some "C") none])] + 1 := by
  have h1 : "B" ∈ flattenIds [MenuNode.mk (some "A")
      (some [MenuNode.mk (some "B") none, MenuNode.mk (some "C") none])] := by
    simp [flattenIds]
  have h2 : anchorChildless "B" [MenuNode.mk (some "A")
      (some [MenuNode.mk (some "B") none, MenuNode.mk (some "C") none])] = true := by
    simp [anchorChildless]
  exact ⟨h1, h2, C1_menu_insert_after "B" "new" _ h1 h2⟩

/-! ## Ordered catalog (`update_yaml_with_new_entry`)

The YAML catalog is loaded with an `OrderedDict` constructor, so the docs
section is an ordered sequence of `(key, record)` pairs.  Only the parts
of the YAML document that the function reads or writes are modelled: the
optional `en` locale mapping and its optional `docs` section. -/

structure CatalogEntry where
  title : String
  meta_title : String
  description : String
  menu_title : String
deriving DecidableEq

structure EnSection where
  docs : Option (List (String × CatalogEntry))
deriving DecidableEq

structure YamlData where
  en : Option EnSection
deriving DecidableEq

/-- `OrderedDict` assignment `d[key] = v`: if the key is present its value
is replaced in place (the key keeps its position), otherwise the pair is
appended at the end. -/
def odSet (l : List (String × CatalogEntry)) (k : String) (v : CatalogEntry) :
    List (String × CatalogEntry) :=
  if l.any (fun p => p.1 == k) then l.map (fun p => if p.1 == k then (k, v) else p)
  else l ++ [(k, v)]

/-- The `for key, value in yaml_data['en']['docs'].items()` loop of
`update_yaml_with_new_entry` (lines 96-104), with the freshly created
`new_documentation` ordered dict as explicit accumulator: each existing
pair is copied, and right after copying the pair whose key equals the
selected tutorial id the new `(newKey, newVal)` pair is added. -/
def rebuildLoop (sel newKey : String) (newVal : CatalogEntry)
    (acc : List (String × CatalogEntry)) :
    List (String × CatalogEntry) → List (String × CatalogEntry)
  | [] => acc
  | kv :: rest =>
      let acc1 := odSet acc kv.1 kv.2
      let acc2 := if kv.1 == sel then odSet acc1 newKey newVal else acc1
      rebuildLoop sel newKey newVal acc2 rest

/-- Embedding of `update_yaml_with_new_entry` (lines 79-109).  The Python
guard `if 'en' not in yaml_data or 'docs' not in yaml_data['en']` performs
`yaml_data['en']['docs'] = OrderedDict()`; when `'en'` itself is absent the
subscript `yaml_data['en']` raises `KeyError`, modelled as `Except.error`;
when only `'docs'` is absent the section is created empty.  The new-entry
dict built by the caller holds a single pair, passed here as
`(newKey, newVal)` (Python recovers the key as
`list(new_yaml_entry.keys())[0]`). -/
def update_yaml_with_new_entry (yaml : YamlData) (selected_tutorial_id : String)
    (newKey : String) (newVal : CatalogEntry) : Except String YamlData :=
  match yaml.en with
  | none => Except.error "KeyError: en"
  | some e =>
      let docs := match e.docs with
        | none => []
        | some d => d
      Except.ok ⟨some ⟨some (rebuildLoop selected_tutorial_id newKey newVal [] docs)⟩⟩

/-- Observation function capturing one pass of the rebuild loop with an
empty starting accumulator: every pair is copied in order and the pair
`(nk, nv)` is emitted right after each pair whose key equals `sel`. -/
def rebuildPure (sel nk : String) (nv : CatalogEntry) :
    List (String × CatalogEntry) → List (String × CatalogEntry)
  | [] => []
  | kv :: rest =>
      if kv.1 == sel then kv :: (nk, nv) :: rebuildPure sel nk nv rest
      else kv :: rebuildPure sel nk nv rest

theorem odSet_not_mem (l : List (String × CatalogEntry)) (k : String) (v : CatalogEntry)
    (h : k ∉ l.map Prod.fst) : odSet l k v = l ++ [(k, v)] := by
  have hfalse : l.any (fun p => p.1 == k) = false := by
    rw [List.any_eq_false]
    intro p hp
    simp only [beq_iff_eq]
    intro he
    exact h (by simpa [he] using List.mem_map_of_mem Prod.fst hp)
  simp [odSet, hfalse]

/-- The rebuild loop with a fresh accumulator behaves like `rebuildPure`:
all `OrderedDict` assignments are plain appends. -/
theorem rebuildLoop_spec (sel nk : String) (nv : CatalogEntry)
    (l : List (String × CatalogEntry)) :
    ∀ acc, (l.map Prod.fst).Nodup →
    (∀ k ∈ l.map Prod.fst, k ∉ acc.map Prod.fst) →
    (sel ∈ l.map Prod.fst → nk ∉ l.map Prod.fst ∧ nk ∉ acc.map Prod.fst) →
    rebuildLoop sel nk nv acc l = acc ++ rebuildPure sel nk nv l := by
  induction l with
  | nil => intro acc _ _ _; simp [rebuildLoop, rebuildPure]
  | cons kv rest ih =>
      intro acc hnd hdisj hfresh
      simp only [List.map_cons, List.nodup_cons] at hnd
      have hk_acc : kv.1 ∉ acc.map Prod.fst := hdisj kv.1 (by simp)
      have hset : odSet acc kv.1 kv.2 = acc ++ [(kv.1, kv.2)] := odSet_not_mem _ _ _ hk_acc
      by_cases hcase : kv.1 = sel
      · obtain ⟨hnk_l, hnk_acc⟩ := hfresh (by simp [← hcase])
        have hnk_k : nk ≠ kv.1 := by
          intro he; exact hnk_l (by simp [he])
        have hnk1 : nk ∉ (acc ++ [(kv.1, kv.2)]).map Prod.fst := by
          simp only [List.map_append, List.mem_append, List.map_cons, List.map_nil,
            List.mem_cons, List.not_mem_nil, or_false]
          rintro (h | h)
          · exact hnk_acc h
          · exact hnk_k h
        have hset2 : odSet (acc ++ [(kv.1, kv.2)]) nk nv =
            acc ++ [(kv.1, kv.2)] ++ [(nk, nv)] := odSet_not_mem _ _ _ hnk1
        have hsel_rest : sel ∉ rest.map Prod.fst := hcase ▸ hnd.1
        have hrec : rebuildLoop sel nk nv (acc ++ [(kv.1, kv.2)] ++ [(nk, nv)]) rest =
            (acc ++ [(kv.1, kv.2)] ++ [(nk, nv)]) ++ rebuildPure sel nk nv rest := by
          apply ih
          · exact hnd.2
          · intro k hk
            simp only [List.map_append, List.mem_append, List.map_cons, List.map_nil,
              List.mem_cons, List.not_mem_nil, or_false]
            rintro ((h | h) | h)
            · exact hdisj k (by simp [hk]) h
            · exact hnd.1 (h ▸ hk)
            · exact hnk_l (by simp [← h, hk])
          · intro hmem; exact absurd hmem hsel_rest
        have hbeq : (kv.1 == sel) = true := by simpa using hcase
        have step : rebuildLoop sel nk nv acc (kv :: rest) =
            rebuildLoop sel nk nv (acc ++ [(kv.1, kv.2)] ++ [(nk, nv)]) rest := by
          simp only [rebuildLoop, hbeq, if_true, hset, hset2]
        rw [step, hrec]
        simp [rebuildPure, hbeq]
      · have hbeq : (kv.1 == sel) = false := by simpa using hcase
        have hrec : rebuildLoop sel nk nv (acc ++ [(kv.1, kv.2)]) rest =
            (acc ++ [(kv.1, kv.2)]) ++ rebuildPure sel nk nv rest := by
          apply ih
          · exact hnd.2
          · intro k hk
            simp only [List.map_append, List.mem_append, List.map_cons, List.map_nil,
              List.mem_cons, List.not_mem_nil, or_false]
            rintro (h | h)
            · exact hdisj k (by simp [hk]) h
            · exact hnd.1 (h ▸ hk)
          · intro hmem
            obtain ⟨h1, h2⟩ := hfresh (by simp [hmem])
            constructor
            · intro h; exact h1 (by simp [h])
            · simp only [List.map_append, List.mem_append, List.map_cons, List.map_nil,
                List.mem_cons, List.not_mem_nil, or_false]
              rintro (h | h)
              · exact h2 h
              · exact h1 (by simp [h])
        have step : rebuildLoop sel nk nv acc (kv :: rest) =
            rebuildLoop sel nk nv (acc ++ [(kv.1, kv.2)]) rest := by
          simp only [rebuildLoop, hbeq, Bool.false_eq_true, if_false, hset]
        rw [step, hrec]
        simp [rebuildPure, hbeq]

/-- When the selected key is absent, `rebuildPure` copies the list. -/
theorem rebuildPure_no_sel (sel nk : String) (nv : CatalogEntry)
    (l : List (String × CatalogEntry)) (h : sel ∉ l.map Prod.fst) :
    rebuildPure sel nk nv l = l := by
  induction l with
  | nil => simp [rebuildPure]
  | cons kv rest ih =>
      simp only [List.map_cons, List.mem_cons, not_or] at h
      have hbeq : (kv.1 == sel) = false := by
        simp only [beq_eq_false_iff_ne, ne_eq]
        intro he; exact h.1 he.symm
      simp [rebuildPure, hbeq, ih h.2]

/-- `rebuildPure` on a list whose unique occurrence of the selected key
splits it as `l1 ++ (sel, va) :: l2` inserts the new pair right after the
anchor pair. -/
theorem rebuildPure_insert (sel nk : String) (nv va : CatalogEntry)
    (l1 l2 : List (String × CatalogEntry))
    (h1 : sel ∉ l1.map Prod.fst) (h2 : sel ∉ l2.map Prod.fst) :
    rebuildPure sel nk nv (l1 ++ (sel, va) :: l2) =
      l1 ++ (sel, va) :: (nk, nv) :: l2 := by
  induction l1 with
  | nil =>
      simp only [List.nil_append, rebuildPure]
      rw [if_pos (by simp)]
      simp [rebuildPure_no_sel sel nk nv l2 h2]
  | cons kv rest ih =>
      simp only [List.map_cons, List.mem_cons, not_or] at h1
      have hbeq : (kv.1 == sel) = false := by
        simp only [beq_eq_false_iff_ne, ne_eq]
        intro he; exact h1.1 he.symm
      simp only [List.cons_append, rebuildPure, hbeq, if_false]
      simp [ih h1.2]

/-- **C2**: for every docs section with nodup keys containing the anchor
key, and every fresh new key, `update_yaml_with_new_entry` keeps every
pre-existing pair in its original relative order and places the new pair
immediately after the anchor pair. -/
theorem C2_catalog_insert_after (l1 l2 : List (String × CatalogEntry))
    (anchor newKey : String) (va newVal : CatalogEntry)
    (hnd : ((l1 ++ (anchor, va) :: l2).map Prod.fst).Nodup)
    (hnew : newKey ∉ (l1 ++ (anchor, va) :: l2).map Prod.fst) :
    update_yaml_with_new_entry ⟨some ⟨some (l1 ++ (anchor, va) :: l2)⟩⟩
        anchor newKey newVal =
      Except.ok ⟨some ⟨some (l1 ++ (anchor, va) :: (newKey, newVal) :: l2)⟩⟩ := by
  have hnd' := hnd
  rw [List.map_append, List.map_cons, List.nodup_append] at hnd'
  obtain ⟨hn1, hn2, hdsj⟩ := hnd'
  have h2 : anchor ∉ l2.map Prod.fst := (List.nodup_cons.mp hn2).1
  have h1 : anchor ∉ l1.map Prod.fst := fun h => (hdsj h) (List.mem_cons_self _ _)
  have hloop := rebuildLoop_spec anchor newKey newVal (l1 ++ (anchor, va) :: l2) []
    hnd (by simp) (fun _ => ⟨hnew, by simp⟩)
  simp only [update_yaml_with_new_entry]
  rw [hloop, rebuildPure_insert anchor newKey newVal va l1 l2 h1 h2]
  simp

/-- Witness for `C2_catalog_insert_after`: the catalog `[x, B, y]` with
`insertAfter("B", "new", r)` yields `[x, B, new, y]`. -/
theorem C2_catalog_insert_after_witness :
    update_yaml_with_new_entry
        ⟨some ⟨some [("x", ⟨"a", "b", "c", "d"⟩), ("B", ⟨"e", "f", "g", "h"⟩),
          ("y", ⟨"i", "j", "k", "l"⟩)]⟩⟩ "B" "new" ⟨"p", "q", "r", "s"⟩ =
      Except.ok ⟨some ⟨some [("x", ⟨"a", "b", "c", "d"⟩), ("B", ⟨"e", "f", "g", "h"⟩),
        ("new", ⟨"p", "q", "r", "s"⟩), ("y", ⟨"i", "j", "k", "l"⟩)]⟩⟩ := by
  have h := C2_catalog_insert_after [("x", ⟨"a", "b", "c", "d"⟩)]
    [("y", ⟨"i", "j", "k", "l"⟩)] "B" "new" ⟨"e", "f", "g", "h"⟩ ⟨"p", "q", "r", "s"⟩
    (by decide) (by decide)
  simpa using h

/-- **C5** (code bug): the guard of `update_yaml_with_new_entry` is meant
to create the missing docs container, and indeed does so when only
`'docs'` is absent — but when the `'en'` locale container itself is absent
the assignment `yaml_data['en']['docs'] = OrderedDict()` subscripts the
missing `'en'` key and raises `KeyError` instead of creating anything. -/
theorem C5_container_branch :
    update_yaml_with_new_entry ⟨none⟩ "anchor" "new" ⟨"t", "m", "d", "u"⟩ =
      Except.error "KeyError: en" ∧
    update_yaml_with_new_entry ⟨some ⟨none⟩⟩ "anchor" "new" ⟨"t", "m", "d", "u"⟩ =
      Except.ok ⟨some ⟨some []⟩⟩ := by
  exact ⟨rfl, rfl⟩

/-- **C6**: when the anchor key is absent from the docs section (with its
nodup keys), `update_yaml_with_new_entry` raises no error and never
inserts the new pair: the resulting section equals the original one. -/
theorem C6_absent_anchor_noop (l : List (String × CatalogEntry))
    (anchor newKey : String) (newVal : CatalogEntry)
    (hnd : (l.map Prod.fst).Nodup) (habs : anchor ∉ l.map Prod.fst) :
    update_yaml_with_new_entry ⟨some ⟨some l⟩⟩ anchor newKey newVal =
      Except.ok ⟨some ⟨some l⟩⟩ := by
  have hloop := rebuildLoop_spec anchor newKey newVal l [] hnd (by simp)
    (fun h => absurd h habs)
  simp only [update_yaml_with_new_entry]
  rw [hloop, rebuildPure_no_sel anchor newKey newVal l habs]
  simp

/-- Witness for `C6_absent_anchor_noop` at a concrete input. -/
theorem C6_absent_anchor_noop_witness :
    update_yaml_with_new_entry ⟨some ⟨some [("x", ⟨"a", "b", "c", "d"⟩)]⟩⟩
        "Z" "new" ⟨"p", "q", "r", "s"⟩ =
      Except.ok ⟨some ⟨some [("x", ⟨"a", "b", "c", "d"⟩)]⟩⟩ :=
  C6_absent_anchor_noop [("x", ⟨"a", "b", "c", "d"⟩)] "Z" "new" ⟨"p", "q", "r", "s"⟩
    (by decide) (by decide)

/-! ## Content derivation (`create_new_documentation_page`, lines 257-265)

Content documents are modelled as lists of characters.  Python `re.sub`
scans the subject left to right, replaces every non-overlapping match
(resuming right after each match) and copies everything else unchanged.
The engine below takes a matcher which, applied to a suffix of the
subject, either fails or returns the length of the match starting there
(1 or more for every pattern of the source, since they all begin with a
nonempty literal) together with the replacement text. -/

/-- Python `\s` on the ASCII range: space, tab, newline, carriage return,
vertical tab, form feed. -/
def pyIsSpace (c : Char) : Bool :=
  c == ' ' || c == '\t' || c == '\n' || c == '\r' || c == '\x0b' || c == '\x0c'

/-- The character class `["\']`. -/
def isQuote (c : Char) : Bool := c == '"' || c == '\x27'

/-- Whether the second list starts with the first one (a literal match of
the pattern at the head of the subject). -/
def leadsWith : List Char → List Char → Bool
  | [], _ => true
  | _ :: _, [] => false
  | p :: ps, c :: cs => p == c && leadsWith ps cs

/-- `.*?["\']` without DOTALL, after the opening quote: the lazy run
extends to the first quote character; the match fails if a newline (which
`.` cannot match) intervenes or no quote follows.  Returns the index of
the closing quote. -/
def scanToQuote : List Char → Option Nat
  | [] => none
  | c :: cs =>
      if isQuote c then some 0
      else if c == '\n' then none
      else (scanToQuote cs).map (· + 1)

/-- The lazy `.*?` bounded by the lookahead `(?=\n## |\Z)` under DOTALL:
distance to the first position where `"\n## "` starts, or to the end of
the subject. -/
def scanToHeader : List Char → Nat
  | [] => 0
  | c :: cs => if leadsWith ('\n' :: '#' :: '#' :: [' ']) (c :: cs) then 0
               else 1 + scanToHeader cs

/-- Index of the last newline of a list, if any (the position at which a
greedy `\s*` followed by `\n` ends up after backtracking inside a
whitespace run). -/
def lastNl : List Char → Option Nat
  | [] => none
  | c :: cs =>
      match lastNl cs with
      | some i => some (i + 1)
      | none => if c == '\n' then some 0 else none

/-- Matcher for `videoId:\s*["\'].*?["\']` (line 258): the literal
`videoId:`, greedy whitespace, an opening quote, then a lazy run of
non-newline characters up to the first closing quote.  Returns the match
length. -/
def matchVideoId (s : List Char) : Option Nat :=
  if leadsWith "videoId:".toList s then
    let t := s.drop 8
    let w := (t.takeWhile pyIsSpace).length
    match t.drop w with
    | [] => none
    | q :: t3 =>
        if isQuote q then
          match scanToQuote t3 with
          | some j => some (8 + w + 1 + j + 1)
          | none => none
        else none
  else none

/-- Matcher for `\[githublink\]:\s*https?://[^\s]+` (line 259): the
literal `[githublink]:`, greedy whitespace, `http://` or `https://`, then
a greedy nonempty run of non-whitespace characters.  Returns the match
length. -/
def matchGithub (s : List Char) : Option Nat :=
  if leadsWith "[githublink]:".toList s then
    let t := s.drop 13
    let w := (t.takeWhile pyIsSpace).length
    let t2 := t.drop w
    let base : Option Nat :=
      if leadsWith "https://".toList t2 then some 8
      else if leadsWith "http://".toList t2 then some 7
      else none
    match base with
    | none => none
    | some blen =>
        let m := ((t2.drop blen).takeWhile (fun c => !pyIsSpace c)).length
        if m == 0 then none else some (13 + w + blen + m)
  else none

/-- Matcher for `(## Overview\s*\n).*?(?=\n## |\Z)` with DOTALL (lines
260-265): the literal `## Overview`, then the greedy `\s*\n` backtracks so
that group 1 ends at the last newline of the following whitespace run, and
the lazy tail extends to the first `"\n## "` or to the end.  Returns the
match length together with the length of group 1. -/
def matchOverview (s : List Char) : Option (Nat × Nat) :=
  if leadsWith "## Overview".toList s then
    let t := s.drop 11
    match lastNl (t.takeWhile pyIsSpace) with
    | none => none
    | some k =>
        let g1len := 11 + k + 1
        some (g1len + scanToHeader (s.drop g1len), g1len)
  else none

/-- The replacement-producing matcher for the video id substitution:
`re.sub` replaces each match with `videoId: "{video_id}"`. -/
def vidMatcher (vid : List Char) (s : List Char) : Option (Nat × List Char) :=
  (matchVideoId s).map (fun n => (n, "videoId: \"".toList ++ vid ++ ['"']))

/-- The replacement-producing matcher for the github link substitution:
`re.sub` replaces each match with `[githublink]: {github_url}`. -/
def ghMatcher (url : List Char) (s : List Char) : Option (Nat × List Char) :=
  (matchGithub s).map (fun n => (n, "[githublink]: ".toList ++ url))

/-- The replacement-producing matcher for the Overview substitution:
`re.sub` replaces each match with `\1\n{short_summary}\n`, where `\1` is
group 1 (the header line with its trailing whitespace block). -/
def ovMatcher (summary : List Char) (s : List Char) : Option (Nat × List Char) :=
  (matchOverview s).map (fun ng => (ng.1, s.take ng.2 ++ '\n' :: (summary ++ ['\n'])))

/-- One `re.sub` scan with explicit fuel (one unit per subject position;
every match of the matchers above has length at least 1, so fuel equal to
the subject length always suffices — see `reSubFuel_eq_of_le`). -/
def reSubFuel (m : List Char → Option (Nat × List Char)) :
    Nat → List Char → List Char
  | _, [] => []
  | 0, s => s
  | fuel + 1, c :: cs =>
      match m (c :: cs) with
      | some (n, r) => r ++ reSubFuel m fuel (cs.drop (n - 1))
      | none => c :: reSubFuel m fuel cs

/-- `re.sub(pattern, repl, s)`: scan from the left, replacing every
non-overlapping match and resuming right after it. -/
def reSub (m : List Char → Option (Nat × List Char)) (s : List Char) : List Char :=
  reSubFuel m s.length s

/-- Observation predicate: some suffix of the subject begins with a
match. -/
def hasMatch (m : List Char → Option (Nat × List Char)) : List Char → Bool
  | [] => false
  | c :: cs => (m (c :: cs)).isSome || hasMatch m cs

theorem reSubFuel_eq_of_le (m : List Char → Option (Nat × List Char)) :
    ∀ fuel s, s.length ≤ fuel → reSubFuel m fuel s = reSub m s := by
  intro fuel
  induction fuel using Nat.strong_induction_on with
  | _ fuel ih =>
      intro s hs
      match fuel, s with
      | _, [] => cases fuel <;> simp [reSubFuel, reSub]
      | 0, c :: cs => simp at hs
      | fuel + 1, c :: cs =>
          simp only [List.length_cons, Nat.add_le_add_iff_right] at hs
          show reSubFuel m (fuel + 1) (c :: cs) = reSubFuel m (c :: cs).length (c :: cs)
          simp only [reSubFuel, List.length_cons]
          cases hm : m (c :: cs) with
          | none =>
              have h1 : reSubFuel m fuel cs = reSub m cs := ih fuel (by omega) cs hs
              have h2 : reSubFuel m cs.length cs = reSub m cs := ih cs.length (by omega) cs (le_refl _)
              rw [h1, h2]
          | some nr =>
              obtain ⟨n, r⟩ := nr
              have hd : (cs.drop (n - 1)).length ≤ cs.length := by
                simp [List.length_drop]
              have h1 : reSubFuel m fuel (cs.drop (n - 1)) = reSub m (cs.drop (n - 1)) :=
                ih fuel (by omega) _ (by omega)
              have h2 : reSubFuel m cs.length (cs.drop (n - 1)) = reSub m (cs.drop (n - 1)) :=
                ih cs.length (by omega) _ hd
              simp only [h1, h2]

/-- Scan step on a non-matching position. -/
theorem reSub_cons_none (m : List Char → Option (Nat × List Char)) (c : Char)
    (cs : List Char) (h : m (c :: cs) = none) :
    reSub m (c :: cs) = c :: reSub m cs := by
  show reSubFuel m (cs.length + 1) (c :: cs) = c :: reSub m cs
  simp only [reSubFuel, h]
  rw [reSubFuel_eq_of_le m cs.length cs (le_refl _)]

/-- Scan step on a matching position: emit the replacement and resume
right after the match. -/
theorem reSub_match (m : List Char → Option (Nat × List Char)) (s : List Char)
    (n : Nat) (r : List Char) (h : m s = some (n, r)) (hn : 1 ≤ n) (hs : s ≠ []) :
    reSub m s = r ++ reSub m (s.drop n) := by
  match s with
  | [] => exact absurd rfl hs
  | c :: cs =>
      obtain ⟨n', rfl⟩ : ∃ n', n = n' + 1 := ⟨n - 1, by omega⟩
      show reSubFuel m (cs.length + 1) (c :: cs) = r ++ reSub m ((c :: cs).drop (n' + 1))
      simp only [reSubFuel, h, Nat.add_sub_cancel, List.drop_succ_cons]
      rw [reSubFuel_eq_of_le m cs.length (cs.drop n') (by simp [List.length_drop])]

/-- A subject without any match is left untouched. -/
theorem reSub_no_match (m : List Char → Option (Nat × List Char)) (s : List Char)
    (h : hasMatch m s = false) : reSub m s = s := by
  induction s with
  | nil => rfl
  | cons c cs ih =>
      simp only [hasMatch, Bool.or_eq_false_iff] at h
      have hnone : m (c :: cs) = none := by
        cases hm : m (c :: cs) with
        | none => rfl
        | some v => rw [hm] at h; simp at h
      rw [reSub_cons_none m c cs hnone, ih h.2]

/-- The scan copies a match-free region verbatim. -/
theorem reSub_front (m : List Char → Option (Nat × List Char)) (a : List Char) :
    ∀ t, (∀ i < a.length, m ((a ++ t).drop i) = none) →
    reSub m (a ++ t) = a ++ reSub m t := by
  induction a with
  | nil => intro t _; simp
  | cons c a' ih =>
      intro t hnone
      have h0 : m (c :: (a' ++ t)) = none := by
        have := hnone 0 (by simp)
        simpa using this
      rw [List.cons_append, reSub_cons_none m c (a' ++ t) h0]
      rw [ih t (fun i hi => by
        have := hnone (i + 1) (by simp; omega)
        simpa using this)]
      simp

theorem matchVideoId_pos (s : List Char) (n : Nat) (h : matchVideoId s = some n) :
    1 ≤ n := by
  simp only [matchVideoId] at h
  split at h
  · split at h
    · exact absurd h (by simp)
    · split at h
      · split at h
        · simp only [Option.some.injEq] at h
          omega
        · exact absurd h (by simp)
      · exact absurd h (by simp)
  · exact absurd h (by simp)

/-- **C3** (amended): substituting the video identifier rewrites every
occurrence of the `videoId:` inline marker (not only the first — `re.sub`
replaces all non-overlapping matches); on a template with exactly one
occurrence, the matched span becomes `videoId: "{vid}"` and every other
byte of the document is unchanged. -/
theorem C3_videoId_substitution (vid a mtext b : List Char)
    (hm : matchVideoId (mtext ++ b) = some mtext.length)
    (ha : ∀ i < a.length, matchVideoId ((a ++ (mtext ++ b)).drop i) = none)
    (hb : hasMatch (vidMatcher vid) b = false) :
    reSub (vidMatcher vid) (a ++ (mtext ++ b)) =
      a ++ (("videoId: \"".toList ++ vid ++ ['"']) ++ b) := by
  have hpos : 1 ≤ mtext.length := matchVideoId_pos _ _ hm
  have hmm : vidMatcher vid (mtext ++ b) =
      some (mtext.length, "videoId: \"".toList ++ vid ++ ['"']) := by
    simp [vidMatcher, hm]
  have hne : mtext ++ b ≠ [] := by
    cases mtext with
    | nil => simp at hpos
    | cons x xs => simp
  rw [reSub_front _ a (mtext ++ b) (fun i hi => by simp [vidMatcher, ha i hi])]
  rw [reSub_match _ _ _ _ hmm hpos hne]
  rw [List.drop_left, reSub_no_match _ _ hb]

/-- **C3** counterexample to the claim as stated: on a template holding
two `videoId:` markers, `re.sub` substitutes both occurrences, not only
the first. -/
theorem C3_counterexample :
    reSub (vidMatcher "abc123".toList)
        "videoId: \x27a\x27 videoId: \x27b\x27".toList =
      "videoId: \"abc123\" videoId: \"abc123\"".toList ∧
    reSub (vidMatcher "abc123".toList)
        "videoId: \x27a\x27 videoId: \x27b\x27".toList ≠
      "videoId: \"abc123\" videoId: \x27b\x27".toList := by
  constructor
  · decide
  · decide

/-- Witness for `C3_videoId_substitution` at a concrete input. -/
theorem C3_videoId_substitution_witness :
    reSub (vidMatcher "abc123".toList)
        ("x\n".toList ++ ("videoId: \x27old\x27".toList ++ "\ny".toList)) =
      "x\n".toList ++ (("videoId: \"".toList ++ "abc123".toList ++ ['"']) ++ "\ny".toList) :=
  C3_videoId_substitution "abc123".toList "x\n".toList "videoId: \x27old\x27".toList
    "\ny".toList (by decide) (by decide) (by decide)


theorem leadsWith_append (p x : List Char) : leadsWith p (p ++ x) = true := by
  induction p with
  | nil => rfl
  | cons c cs ih => simp [leadsWith, ih]

theorem takeWhile_append_all (p : Char → Bool) (w rest : List Char)
    (hw : ∀ c ∈ w, p c = true) :
    (w ++ rest).takeWhile p = w ++ rest.takeWhile p := by
  induction w with
  | nil => rfl
  | cons c cs ih =>
      simp only [List.cons_append, List.takeWhile_cons, hw c (by simp), if_true]
      rw [ih (fun d hd => hw d (by simp [hd]))]

theorem lastNl_none (l : List Char) (h : '\n' ∉ l) : lastNl l = none := by
  induction l with
  | nil => rfl
  | cons c cs ih =>
      simp only [List.mem_cons, not_or] at h
      have hc : (c == '\n') = false := by
        simp only [beq_eq_false_iff_ne, ne_eq]
        intro he; exact h.1 he.symm
      simp [lastNl, ih h.2, hc]

theorem lastNl_append (x t : List Char) (j : Nat) (h : lastNl t = some j) :
    lastNl (x ++ t) = some (x.length + j) := by
  induction x with
  | nil => simpa using h
  | cons c cs ih =>
      simp only [List.cons_append, lastNl, List.append_eq, ih, List.length_cons,
        Option.some.injEq]
      omega

theorem scanToHeader_exact (body b : List Char)
    (hnohdr : ∀ i < body.length,
      leadsWith ('\n' :: '#' :: '#' :: [' ']) ((body ++ b).drop i) = false)
    (hstop : leadsWith ('\n' :: '#' :: '#' :: [' ']) b = true ∨ b = []) :
    scanToHeader (body ++ b) = body.length := by
  induction body with
  | nil =>
      rcases hstop with h | h
      · cases b with
        | nil => simp [leadsWith] at h
        | cons c cs => simp [scanToHeader, h]
      · subst h; rfl
  | cons c body' ih =>
      have h0 := hnohdr 0 (by simp)
      simp only [List.cons_append, List.drop_zero] at h0
      rw [List.cons_append, scanToHeader, if_neg (by simp [h0])]
      rw [ih (fun i hi => by
        have := hnohdr (i + 1) (by simp; omega)
        simpa using this)]
      simp only [List.length_cons]
      omega

/-- Value of the Overview matcher on a subject of the shape
`"## Overview" ++ w ++ "\n" ++ body ++ b`: group 1 is the header literal
plus its whitespace block through its last newline, and the lazy tail is
exactly `body`. -/
theorem matchOverview_at (w body b : List Char)
    (hw : ∀ c ∈ w, pyIsSpace c = true)
    (hwb : '\n' ∉ (body ++ b).takeWhile pyIsSpace)
    (hnohdr : ∀ i < body.length,
      leadsWith ('\n' :: '#' :: '#' :: [' ']) ((body ++ b).drop i) = false)
    (hstop : leadsWith ('\n' :: '#' :: '#' :: [' ']) b = true ∨ b = []) :
    matchOverview ("## Overview".toList ++ (w ++ '\n' :: (body ++ b))) =
      some ((11 + w.length + 1) + body.length, 11 + w.length + 1) := by
  have hlead := leadsWith_append "## Overview".toList (w ++ '\n' :: (body ++ b))
  simp only [matchOverview, hlead, if_true]
  have h11 : ("## Overview".toList).length = 11 := by decide
  have hdrop : ("## Overview".toList ++ (w ++ '\n' :: (body ++ b))).drop 11 =
      w ++ '\n' :: (body ++ b) := by
    rw [← h11, List.drop_left]
  rw [hdrop]
  have hrun : (w ++ '\n' :: (body ++ b)).takeWhile pyIsSpace =
      w ++ '\n' :: (body ++ b).takeWhile pyIsSpace := by
    rw [takeWhile_append_all pyIsSpace w _ hw]
    congr 1
  rw [hrun]
  have h1 : lastNl ('\n' :: (body ++ b).takeWhile pyIsSpace) = some 0 := by
    simp [lastNl, lastNl_none _ hwb]
  have hlast : lastNl (w ++ '\n' :: (body ++ b).takeWhile pyIsSpace) =
      some w.length := by
    have := lastNl_append w _ 0 h1
    simpa using this
  rw [hlast]
  have hdrop2 :
      ("## Overview".toList ++ (w ++ '\n' :: (body ++ b))).drop (11 + w.length + 1) =
        body ++ b := by
    have hre : "## Overview".toList ++ (w ++ '\n' :: (body ++ b)) =
        ("## Overview".toList ++ w ++ ['\n']) ++ (body ++ b) := by simp
    have hlen : ("## Overview".toList ++ w ++ ['\n']).length = 11 + w.length + 1 := by
      simp
      omega
    rw [hre, ← hlen, List.drop_left]
  simp only [hdrop2, scanToHeader_exact body b hnohdr hstop]

/-- **C4** (amended): the Overview substitution preserves the header line
`## Overview` together with its whitespace block up to that block's last
newline byte-identically, replaces exactly the text from there up to (but
not including) the first visible `"\n## "` header start (or the end of
the document), and leaves the remainder unchanged.  When the Overview body
is empty the newline in front of the next header has already been absorbed
into the header block, so that header is part of the replaced span — see
the counterexample. -/
theorem C4_overview_replacement (summary a w body b : List Char)
    (hw : ∀ c ∈ w, pyIsSpace c = true)
    (hwb : '\n' ∉ (body ++ b).takeWhile pyIsSpace)
    (hnohdr : ∀ i < body.length,
      leadsWith ('\n' :: '#' :: '#' :: [' ']) ((body ++ b).drop i) = false)
    (hstop : leadsWith ('\n' :: '#' :: '#' :: [' ']) b = true ∨ b = [])
    (ha : ∀ i < a.length,
      matchOverview ((a ++ ("## Overview".toList ++ (w ++ '\n' :: (body ++ b)))).drop i) = none)
    (hb : hasMatch (ovMatcher summary) b = false) :
    reSub (ovMatcher summary) (a ++ ("## Overview".toList ++ (w ++ '\n' :: (body ++ b)))) =
      a ++ (("## Overview".toList ++ w ++ ['\n']) ++ ('\n' :: (summary ++ ('\n' :: b)))) := by
  have hmatch := matchOverview_at w body b hw hwb hnohdr hstop
  have h11 : ("## Overview".toList).length = 11 := by decide
  have htake :
      ("## Overview".toList ++ (w ++ '\n' :: (body ++ b))).take (11 + w.length + 1) =
        "## Overview".toList ++ w ++ ['\n'] := by
    have hre : "## Overview".toList ++ (w ++ '\n' :: (body ++ b)) =
        ("## Overview".toList ++ w ++ ['\n']) ++ (body ++ b) := by simp
    have hlen : ("## Overview".toList ++ w ++ ['\n']).length = 11 + w.length + 1 := by
      simp
      omega
    rw [hre, ← hlen, List.take_left]
  have hov : ovMatcher summary ("## Overview".toList ++ (w ++ '\n' :: (body ++ b))) =
      some ((11 + w.length + 1) + body.length,
        ("## Overview".toList ++ w ++ ['\n']) ++ ('\n' :: (summary ++ ['\n']))) := by
    simp only [ovMatcher, hmatch, Option.map_some']
    rw [htake]
  have hne : "## Overview".toList ++ (w ++ '\n' :: (body ++ b)) ≠ [] := by simp
  have hfront : ∀ i < a.length, ovMatcher summary
      ((a ++ ("## Overview".toList ++ (w ++ '\n' :: (body ++ b)))).drop i) = none :=
    fun i hi => by
      simp only [ovMatcher]
      rw [ha i hi]
      rfl
  rw [reSub_front _ a _ hfront]
  rw [reSub_match _ _ _ _ hov (by omega) hne]
  have hdropn :
      ("## Overview".toList ++ (w ++ '\n' :: (body ++ b))).drop
        ((11 + w.length + 1) + body.length) = b := by
    have hre : "## Overview".toList ++ (w ++ '\n' :: (body ++ b)) =
        (("## Overview".toList ++ w ++ ['\n']) ++ body) ++ b := by simp
    have hlen : (("## Overview".toList ++ w ++ ['\n']) ++ body).length =
        (11 + w.length + 1) + body.length := by
      simp
      omega
    rw [hre, ← hlen, List.drop_left]
  rw [hdropn, reSub_no_match _ _ hb]
  simp

/-- **C4** counterexample to the claim as stated: on a template whose
Overview body is empty, the greedy `\s*\n` of group 1 absorbs the newline
in front of the next header, the lookahead `(?=\n## |\Z)` can no longer
see that header, and the replacement swallows it: the header line
`## Next` is not preserved in the output. -/
theorem C4_counterexample :
    reSub (ovMatcher "S".toList) "## Overview\n\n## Next\n".toList =
      "## Overview\n\n\nS\n".toList ∧
    ¬ List.IsInfix "## Next".toList "## Overview\n\n\nS\n".toList := by
  constructor
  · decide
  · decide

/-- Witness for `C4_overview_replacement` at a concrete input. -/
theorem C4_overview_replacement_witness :
    reSub (ovMatcher "New summary.".toList)
        ("intro\n".toList ++ ("## Overview".toList ++
          ([] ++ '\n' :: ("Old text".toList ++ "\n## Next\nz".toList)))) =
      "intro\n".toList ++ (("## Overview".toList ++ [] ++ ['\n']) ++
        ('\n' :: ("New summary.".toList ++ ('\n' :: "\n## Next\nz".toList)))) :=
  C4_overview_replacement "New summary.".toList "intro\n".toList []
    "Old text".toList "\n## Next\nz".toList
    (by decide) (by decide) (by decide) (by decide) (by decide) (by decide)


/-! ## Ancestor-page patching (`add_partial_doc_to_parent_pages`, lines 111-136)

The file system is modelled as an association list from path to content; a
path exists on disk iff it has an entry.  In the identifiers below, `pdoc`
abbreviates the marker word appearing in the Python function's name. -/

/-- The `\x7bpartialdoc\x7d` marker token. -/
def pdocTok : List Char := "\x7bpartialdoc\x7d".toList

/-- `str.rindex(sub)` for a nonempty `sub`: the start index of the last
occurrence, or `none` where Python raises `ValueError`. -/
def rindexOf (pat : List Char) : List Char → Option Nat
  | [] => none
  | c :: cs =>
      match rindexOf pat cs with
      | some i => some (i + 1)
      | none => if leadsWith pat (c :: cs) then some 0 else none

/-- `str.index(ch, start)`: the index of the first occurrence of `ch` at
or after `start`, or `none` where Python raises `ValueError`. -/
def indexFrom (ch : Char) (s : List Char) (start : Nat) : Option Nat :=
  match (s.drop start).findIdx? (fun c => c == ch) with
  | some i => some (start + i)
  | none => none

/-- The per-page body of the patch loop (lines 125-136): find the last
`\x7bpartialdoc\x7d` marker, find the end of its line, and insert the new
`\x7bpartialdoc\x7d{name}\x7bpartialdoc\x7d` line right after it.
`rindex` and `index` raise `ValueError` when the marker or the newline is
missing; both are modelled as `Except.error`. -/
def patch_parent_content (content : List Char) (pdocName : List Char) :
    Except String (List Char) :=
  match rindexOf pdocTok content with
  | none => Except.error "ValueError: substring not found"
  | some lp =>
      match indexFrom '\n' content lp with
      | none => Except.error "ValueError: substring not found"
      | some nl =>
          Except.ok (content.take (nl + 1) ++
            ((pdocTok ++ pdocName ++ pdocTok ++ ['\n']) ++ content.drop (nl + 1)))

abbrev FS := List (String × List Char)

def fsLookup : FS → String → Option (List Char)
  | [], _ => none
  | kv :: rest, p => if kv.1 = p then some kv.2 else fsLookup rest p

/-- Writing a file: replace the entry when the path exists, create it
otherwise. -/
def fsWrite (fs : FS) (p : String) (c : List Char) : FS :=
  if fs.any (fun kv => decide (kv.1 = p)) then
    fs.map (fun kv => if kv.1 = p then (p, c) else kv)
  else fs ++ [(p, c)]

/-- `os.path.join(docs_dir, f"app/views/documentation/{s}.html.md")`. -/
def pagePath (docs_dir : String) (section_id : String) : String :=
  docs_dir ++ "/app/views/documentation/" ++ section_id ++ ".html.md"

/-- The `for parent_page in parent_pages` loop (lines 123-136): a page
that exists on disk is read, patched and written back; a page that does
not exist is skipped; a patch failure propagates as the uncaught Python
exception would. -/
def patchPages (pdocName : List Char) : List String → FS → Except String FS
  | [], fs => Except.ok fs
  | p :: rest, fs =>
      match fsLookup fs p with
      | none => patchPages pdocName rest fs
      | some content =>
          match patch_parent_content content pdocName with
          | Except.error e => Except.error e
          | Except.ok c2 => patchPages pdocName rest (fsWrite fs p c2)

/-- Embedding of `add_partial_doc_to_parent_pages`: `parent_path[-2:]`
selects the up-to-two nearest ancestor sections, whose pages are then
patched. -/
def add_pdoc_to_parent_pages (fs : FS) (docs_dir : String) (pdocName : List Char)
    (parent_path : List String) : Except String FS :=
  patchPages pdocName
    ((parent_path.drop (parent_path.length - 2)).map (pagePath docs_dir)) fs

/-- Observation predicate: the page either does not exist or its content
patches successfully. -/
def pageOk (pdocName : List Char) (fs : FS) (p : String) : Bool :=
  match fsLookup fs p with
  | none => true
  | some c => (patch_parent_content c pdocName).isOk

theorem fsLookup_map_set_self (p : String) (c : List Char) :
    ∀ fs : FS, fs.any (fun kv => decide (kv.1 = p)) = true →
    fsLookup (fs.map (fun kv => if kv.1 = p then (p, c) else kv)) p = some c := by
  intro fs
  induction fs with
  | nil => simp
  | cons kv rest ih =>
      intro hany
      by_cases hk : kv.1 = p
      · simp [fsLookup, hk]
      · simp only [List.any_cons, decide_eq_true_eq, Bool.or_eq_true] at hany
        rcases hany with h | h
        · exact absurd h hk
        · simp [fsLookup, hk, ih (by simpa using h)]

theorem fsLookup_append_single_self (p : String) (c : List Char) :
    ∀ fs : FS, fs.any (fun kv => decide (kv.1 = p)) = false →
    fsLookup (fs ++ [(p, c)]) p = some c := by
  intro fs
  induction fs with
  | nil => intro _; simp [fsLookup]
  | cons kv rest ih =>
      intro hany
      simp only [List.any_cons, Bool.or_eq_false_iff, decide_eq_false_iff_not] at hany
      simp [fsLookup, hany.1, ih (by simpa using hany.2)]

theorem fsLookup_map_set_other (p q : String) (c : List Char) (hq : q ≠ p) :
    ∀ fs : FS,
    fsLookup (fs.map (fun kv => if kv.1 = p then (p, c) else kv)) q = fsLookup fs q := by
  intro fs
  induction fs with
  | nil => rfl
  | cons kv rest ih =>
      by_cases hk : kv.1 = p
      · have hkq : ¬kv.1 = q := by rw [hk]; exact fun he => hq he.symm
        have hpq : ¬p = q := fun he => hq he.symm
        simp [fsLookup, hk, hpq, hkq, ih]
      · by_cases hkq : kv.1 = q
        · simp [fsLookup, hk, hkq, hq]
        · simp [fsLookup, hk, hkq, ih]

theorem fsLookup_append_single_other (p q : String) (c : List Char) (hq : q ≠ p) :
    ∀ fs : FS, fsLookup (fs ++ [(p, c)]) q = fsLookup fs q := by
  intro fs
  have hpq : ¬p = q := fun he => hq he.symm
  induction fs with
  | nil => simp [fsLookup, hpq]
  | cons kv rest ih => simp [fsLookup, ih]

theorem fsLookup_fsWrite_self (fs : FS) (p : String) (c : List Char) :
    fsLookup (fsWrite fs p c) p = some c := by
  unfold fsWrite
  split
  · exact fsLookup_map_set_self p c fs (by assumption)
  · next h =>
      apply fsLookup_append_single_self p c fs
      cases hb : fs.any (fun kv => decide (kv.1 = p)) with
      | false => rfl
      | true => exact absurd hb h

theorem fsLookup_fsWrite_other (fs : FS) (p q : String) (c : List Char)
    (hq : q ≠ p) : fsLookup (fsWrite fs p c) q = fsLookup fs q := by
  unfold fsWrite
  split
  · exact fsLookup_map_set_other p q c hq fs
  · exact fsLookup_append_single_other p q c hq fs

/-- Loop invariant for `patchPages`: when every existing page in the list
patches successfully, the loop succeeds, creates or deletes no file,
leaves paths outside the list untouched, and rewrites each existing page
to its patched content. -/
theorem patchPages_spec (pdocName : List Char) (pages : List String) :
    ∀ fs, pages.Nodup →
    (∀ p ∈ pages, pageOk pdocName fs p = true) →
    ∃ fs2, patchPages pdocName pages fs = Except.ok fs2 ∧
      (∀ q, (fsLookup fs2 q).isSome = (fsLookup fs q).isSome) ∧
      (∀ q, q ∉ pages → fsLookup fs2 q = fsLookup fs q) ∧
      (∀ p ∈ pages, ∀ c, fsLookup fs p = some c →
        fsLookup fs2 p = (patch_parent_content c pdocName).toOption) := by
  induction pages with
  | nil =>
      intro fs _ _
      exact ⟨fs, rfl, fun q => rfl, fun q _ => rfl, fun p hp => absurd hp (by simp)⟩
  | cons p rest ih =>
      intro fs hnd hok
      rw [List.nodup_cons] at hnd
      cases hlook : fsLookup fs p with
      | none =>
          obtain ⟨fs2, h1, h2, h3, h4⟩ := ih fs hnd.2 (fun p2 hp2 => hok p2 (by simp [hp2]))
          refine ⟨fs2, ?_, h2, ?_, ?_⟩
          · simp [patchPages, hlook, h1]
          · intro q hq
            exact h3 q (by intro hin; exact hq (by simp [hin]))
          · intro p2 hp2 c hc
            rcases List.mem_cons.mp hp2 with he | hin
            · subst he; rw [hlook] at hc; cases hc
            · exact h4 p2 hin c hc
      | some c =>
          have hokp := hok p (by simp)
          simp only [pageOk, hlook] at hokp
          cases hpr : patch_parent_content c pdocName with
          | error e => rw [hpr] at hokp; simp [Except.isOk, Except.toBool] at hokp
          | ok c2 =>
              have hpresent : (fsLookup fs p).isSome := by simp [hlook]
              have hs_self := fsLookup_fsWrite_self fs p c2
              obtain ⟨fs2, h1, h2, h3, h4⟩ := ih (fsWrite fs p c2) hnd.2 (fun p2 hp2 => by
                have hne : p2 ≠ p := fun he => hnd.1 (he ▸ hp2)
                have h0 := hok p2 (by simp [hp2])
                simp only [pageOk] at h0 ⊢
                rwa [fsLookup_fsWrite_other fs p p2 c2 hne])
              refine ⟨fs2, ?_, ?_, ?_, ?_⟩
              · simp [patchPages, hlook, hpr, h1]
              · intro q
                rw [h2 q]
                by_cases hq : q = p
                · subst hq
                  rw [hs_self, hlook]
                  rfl
                · rw [fsLookup_fsWrite_other fs p q c2 hq]
              · intro q hq
                have hqp : q ≠ p := fun he => hq (by simp [he])
                rw [h3 q (fun hin => hq (by simp [hin])),
                  fsLookup_fsWrite_other fs p q c2 hqp]
              · intro p2 hp2 c0 hc0
                rcases List.mem_cons.mp hp2 with he | hin
                · subst he
                  rw [hlook] at hc0
                  injection hc0 with hcc
                  subst hcc
                  rw [h3 p2 hnd.1, hs_self, hpr]
                  rfl
                · have hne : p2 ≠ p := fun he => hnd.1 (he ▸ hin)
                  exact h4 p2 hin c0 (by rwa [fsLookup_fsWrite_other fs p p2 c2 hne])


/-- The three content substitutions of `create_new_documentation_page`
(lines 257-265), in source order: video id, github link, Overview body. -/
def deriveContent (template vid url summary : List Char) : List Char :=
  reSub (ovMatcher summary) (reSub (ghMatcher url) (reSub (vidMatcher vid) template))

/-- **C9** (amended): an inline marker absent from the template is skipped
without raising and without aborting the remaining substitutions — a
template containing none of the three markers passes through unchanged and
a complete document is still produced; but the partial-reference marker
missing from an ancestor page is NOT skipped: `content.rindex` raises
`ValueError` there. -/
theorem C9_missing_marker_policy :
    (∀ t vid url summary, hasMatch (vidMatcher vid) t = false →
      hasMatch (ghMatcher url) t = false → hasMatch (ovMatcher summary) t = false →
      deriveContent t vid url summary = t) ∧
    (∀ c name, rindexOf pdocTok c = none →
      patch_parent_content c name = Except.error "ValueError: substring not found") := by
  constructor
  · intro t vid url summary hv hg ho
    unfold deriveContent
    rw [reSub_no_match _ _ hv, reSub_no_match _ _ hg, reSub_no_match _ _ ho]
  · intro c name h
    unfold patch_parent_content
    rw [h]

/-- **C9** counterexample to the claim as stated: an ancestor page whose
content lacks the partial-reference marker makes `content.rindex` raise
`ValueError`, aborting the loop, so the remaining ancestor page (which
does hold the marker) is never patched — the substitution is not skipped. -/
theorem C9_counterexample :
    patchPages "card".toList ["p1", "p2"]
        [("p1", "no marker here\n".toList),
         ("p2", "\x7bpartialdoc\x7dold\x7bpartialdoc\x7d\n".toList)] =
      Except.error "ValueError: substring not found" := by
  rfl

/-- Witness for `C9_missing_marker_policy` at concrete inputs. -/
theorem C9_missing_marker_policy_witness :
    deriveContent "plain body\n".toList "v".toList "u".toList "s".toList =
      "plain body\n".toList ∧
    patch_parent_content "plain body\n".toList "card".toList =
      Except.error "ValueError: substring not found" :=
  ⟨C9_missing_marker_policy.1 "plain body\n".toList "v".toList "u".toList "s".toList
      (by decide) (by decide) (by decide),
   C9_missing_marker_policy.2 "plain body\n".toList "card".toList (by decide)⟩

/-- **C10**: when patching ancestor pages, every selected ancestor page
whose content file does not exist is silently skipped — the run succeeds,
no file is created or deleted, paths outside the selected two are
untouched, and each existing selected page is rewritten to its patched
content. -/
theorem C10_missing_parent_pages_skipped (fs : FS) (docs_dir : String)
    (pdocName : List Char) (parent_path : List String)
    (hnd : ((parent_path.drop (parent_path.length - 2)).map (pagePath docs_dir)).Nodup)
    (hok : ∀ p ∈ (parent_path.drop (parent_path.length - 2)).map (pagePath docs_dir),
      pageOk pdocName fs p = true) :
    ∃ fs2, add_pdoc_to_parent_pages fs docs_dir pdocName parent_path = Except.ok fs2 ∧
      (∀ q, (fsLookup fs2 q).isSome = (fsLookup fs q).isSome) ∧
      (∀ q, q ∉ (parent_path.drop (parent_path.length - 2)).map (pagePath docs_dir) →
        fsLookup fs2 q = fsLookup fs q) ∧
      (∀ p ∈ (parent_path.drop (parent_path.length - 2)).map (pagePath docs_dir),
        ∀ c, fsLookup fs p = some c →
          fsLookup fs2 p = (patch_parent_content c pdocName).toOption) :=
  patchPages_spec pdocName _ fs hnd hok

/-- Witness for `C10_missing_parent_pages_skipped`: ancestor `a` exists
and holds the marker, ancestor `b` does not exist on disk. -/
theorem C10_missing_parent_pages_skipped_witness :
    ∃ fs2, add_pdoc_to_parent_pages
        [("cld/app/views/documentation/a.html.md",
          "\x7bpartialdoc\x7dold\x7bpartialdoc\x7d\ntail\n".toList)]
        "cld" "card".toList ["root", "a", "b"] = Except.ok fs2 ∧
      (∀ q, (fsLookup fs2 q).isSome =
        (fsLookup [("cld/app/views/documentation/a.html.md",
          "\x7bpartialdoc\x7dold\x7bpartialdoc\x7d\ntail\n".toList)] q).isSome) ∧
      (∀ q, q ∉ (["root", "a", "b"].drop (["root", "a", "b"].length - 2)).map
          (pagePath "cld") →
        fsLookup fs2 q = fsLookup [("cld/app/views/documentation/a.html.md",
          "\x7bpartialdoc\x7dold\x7bpartialdoc\x7d\ntail\n".toList)] q) ∧
      (∀ p ∈ (["root", "a", "b"].drop (["root", "a", "b"].length - 2)).map
          (pagePath "cld"),
        ∀ c, fsLookup [("cld/app/views/documentation/a.html.md",
          "\x7bpartialdoc\x7dold\x7bpartialdoc\x7d\ntail\n".toList)] p = some c →
          fsLookup fs2 p = (patch_parent_content c "card".toList).toOption) :=
  C10_missing_parent_pages_skipped
    [("cld/app/views/documentation/a.html.md",
      "\x7bpartialdoc\x7dold\x7bpartialdoc\x7d\ntail\n".toList)]
    "cld" "card".toList ["root", "a", "b"] (by decide) (by decide)


/-! ## Operator selection (`suggest_placement`, lines 49-77) and the
placement pipeline (`create_new_documentation_page`, lines 196-273) -/

/-- Embedding of `find_tutorials` (lines 59-67) together with the caller
loop `for item in menu_data: find_tutorials(item, [])`: every node of the
list is processed with the same path; a node with a nonempty `children`
list contributes its children's results with the path extended by its own
id (`node['id']` raises `KeyError` when absent, since Python evaluates
`path + [node['id']]` before recursing); a childless node with an id is a
tutorial leaf; a node with an empty `children` list or with neither key
contributes nothing. -/
def findTutorials : List MenuNode → List String →
    Except String (List (String × List String))
  | [], _ => Except.ok []
  | MenuNode.mk _ (some []) :: rest, path => findTutorials rest path
  | MenuNode.mk (some nid) (some (c0 :: cs)) :: rest, path => do
      let r1 ← findTutorials (c0 :: cs) (path ++ [nid])
      let r2 ← findTutorials rest path
      Except.ok (r1 ++ r2)
  | MenuNode.mk none (some (_ :: _)) :: _, _ => Except.error "KeyError: id"
  | MenuNode.mk (some nid) none :: rest, path =>
      (findTutorials rest path).map (fun r => (nid, path) :: r)
  | MenuNode.mk none none :: rest, path => findTutorials rest path

/-- Python list subscription `xs[i]`: a nonnegative index must be below
the length, a negative index counts from the end (`xs[len + i]`), and
anything else raises `IndexError`. -/
def pyIndex {α : Type} (xs : List α) (i : Int) : Except String α :=
  if 0 ≤ i then
    match xs.get? i.toNat with
    | some x => Except.ok x
    | none => Except.error "IndexError"
  else
    let j : Int := (xs.length : Int) + i
    if 0 ≤ j then
      match xs.get? j.toNat with
      | some x => Except.ok x
      | none => Except.error "IndexError"
    else Except.error "IndexError"

/-- The selection step of `suggest_placement` (lines 69-77): the flattened
tutorial list is displayed with 1-based indices, the operator's input is
decremented and used to subscript the list, and the chosen id with its
path is returned. -/
def suggest_placement_choice (menu : List MenuNode) (userInput : Int) :
    Except String (String × List String) := do
  let sections ← findTutorials menu []
  pyIndex sections (userInput - 1)

/-- **C7** (code bug): the displayed indices for this menu are 1 and 2,
so the operator input `0` is out of range — yet `tutorial_sections[0 - 1]`
resolves to the LAST leaf via Python negative indexing instead of being
rejected before mutation. -/
theorem C7_out_of_range_selection_resolves :
    findTutorials [MenuNode.mk (some "A")
        (some [MenuNode.mk (some "B") none, MenuNode.mk (some "C") none])] [] =
      Except.ok [("B", ["A"]), ("C", ["A"])] ∧
    suggest_placement_choice [MenuNode.mk (some "A")
        (some [MenuNode.mk (some "B") none, MenuNode.mk (some "C") none])] 0 =
      Except.ok ("C", ["A"]) := by
  constructor
  · simp only [findTutorials]
    rfl
  · simp only [suggest_placement_choice, findTutorials]
    rfl

/-- The post-selection slice of `create_new_documentation_page` (lines
196-273, with the network, git and partial-card-copy steps excluded):
`add_to_menu`'s boolean result is ignored (line 218) and the updated menu
is written regardless; then the YAML catalog is updated and written, the
new page content is derived and written, and the ancestor pages are
patched.  The returned tuple holds the artifacts written, in write
order. -/
def run_placement (menu : List MenuNode) (yaml : YamlData) (template : List Char)
    (fs : FS) (docs_dir : String) (anchor newId : String) (entry : CatalogEntry)
    (vid url summary pdocName : List Char) (parent_path : List String) :
    Except String (List MenuNode × YamlData × List Char × FS) := do
  let menuAfter := match search_and_insert anchor (MenuNode.mk (some newId) none) menu with
    | some m2 => m2
    | none => menu
  let yaml2 ← update_yaml_with_new_entry yaml anchor newId entry
  let content := deriveContent template vid url summary
  let fs2 ← add_pdoc_to_parent_pages fs docs_dir pdocName parent_path
  Except.ok (menuAfter, yaml2, content, fs2)

/-- **C8** (code bug): with an anchor id absent from the menu tree, the
menu insertion reports not-found, but the workflow does not abort: the
(unchanged) tree artifact, the catalog artifact and the content documents
are all still serialized, because line 218 discards `add_to_menu`'s
result. -/
theorem C8_not_found_still_serializes :
    search_and_insert "Z" (MenuNode.mk (some "new") none)
        [MenuNode.mk (some "B") none] = none ∧
    run_placement [MenuNode.mk (some "B") none]
        ⟨some ⟨some [("x", ⟨"a", "b", "c", "d"⟩)]⟩⟩ "t\n".toList [] "cld" "Z" "new"
        ⟨"e", "f", "g", "h"⟩ "v".toList "u".toList "s".toList "card".toList
        ["a", "b"] =
      Except.ok ([MenuNode.mk (some "B") none],
        ⟨some ⟨some [("x", ⟨"a", "b", "c", "d"⟩)]⟩⟩, "t\n".toList, []) := by
  have h1 : search_and_insert "Z" (MenuNode.mk (some "new") none)
      [MenuNode.mk (some "B") none] = none := by
    simp [search_and_insert]
  refine ⟨h1, ?_⟩
  simp only [run_placement, h1]
  rfl


end AddVideoDoc
